import Mathlib

set_option linter.unusedSectionVars false

/-!
Shallow embedding of the AutoSG2PL batch-sync reconciler
(source file SG2PL-Batchsync.py).

The reconciler mirrors the private IP addresses attached to a security
group into an AWS managed prefix list.  We embed the pure data flow of
`lambda_handler` and its helper functions over an abstract address type
`A` (Python strings are opaque keys here; witnesses instantiate `A` with
`Nat`).  Remote state is a `MutState`: the prefix list entries (address
and mask pairs), the declared MaxEntries capacity, and the version token.
Every remote mutating call is recorded in a trace of `Event` values so
that theorems can speak about which calls were issued, in which order,
and with which version argument.

Modelling conventions:
  - the resource is assumed ready at every poll and every remote call is
    assumed to succeed, which is exactly the situation in which a pass
    runs to completion; the lifecycle dispatch of `pl_ready` itself is
    modelled separately as `pl_ready_decision`;
  - the quota service reports an integral value (held as a float by the
    code, on which the arithmetic performed is exact), so the quota is
    an `Int` here; the padding fraction and every division are modelled
    exactly over the rationals;
  - Python `int()` truncation toward zero is modelled by `pyTrunc`;
  - Python set iteration order is fixed by `pySetDiff`, which keeps the
    first occurrence of each distinct element; no claim depends on the
    iteration order of a set.
-/

namespace SG2PL

/-- Entry of the prefix list: an address together with its CIDR mask. -/
abbrev Entry (A : Type) := A × Nat

/-- One remote mutating call to modify_managed_prefix_list, as issued by
the code: the version argument it carries (CurrentVersion, if any), the
AddEntries and RemoveEntries payloads, the MaxEntries payload (if any),
and, as model bookkeeping, the actual version of the resource at the
moment the call is issued. -/
structure ApiCall (A : Type) where
  currentVersion : Option Nat
  addEntries : List (Entry A)
  removeEntries : List (Entry A)
  maxEntries : Option Int
  versionAtCall : Nat
deriving DecidableEq

/-- Observable events of one reconciliation pass: a read of the version
via describe_managed_prefix_lists inside pl_info, a readiness wait via
pl_ready, or a mutating call. -/
inductive Event (A : Type) where
  | readVersion (v : Nat)
  | waitReady
  | call (c : ApiCall A)
deriving DecidableEq

/-- Non-fatal warnings raised during a pass (severity-coded log_handler
calls that do not terminate the function). -/
inductive NfWarning where
  | utilizationThreshold
  | resizeClipped
deriving DecidableEq

/-- Outcome of a pass: the fatal quota abort (log_handler with
terminate=True at the quota check) or the final success message. -/
inductive SyncResult where
  | fatalQuotaExceeded
  | success
deriving DecidableEq

/-- Remote prefix list state threaded through the pass. -/
structure MutState (A : Type) where
  entries : List (Entry A)
  maxEnt : Int
  version : Nat
deriving DecidableEq

/-- Result of one full pass of lambda_handler. -/
structure SyncOutput (A : Type) where
  result : SyncResult
  entries : List (Entry A)
  maxEnt : Int
  version : Nat
  trace : List (Event A)
  warnings : List NfWarning
deriving DecidableEq

/-- Lifecycle states of a managed prefix list, as dispatched on by
pl_ready (the final constructor stands for any unknown value). -/
inductive PlState where
  | createInProgress
  | createComplete
  | createFailed
  | modifyInProgress
  | modifyComplete
  | modifyFailed
  | restoreInProgress
  | restoreComplete
  | restoreFailed
  | deleteInProgress
  | deleteComplete
  | deleteFailed
  | unknownState
deriving DecidableEq

/-- Decision of pl_ready: True (ready), False (poll again after a one
second sleep), or a call to log_handler with severity 3 and
terminate=True, which exits the process; the flag records whether an SNS
alert is sent along with the fatal exit. -/
inductive ReadyDecision where
  | ready
  | notReady
  | fatalExit (alertSent : Bool)
deriving DecidableEq

/-- Dispatch of pl_ready on the lifecycle state, clause by clause from
the source: create-in-progress calls log_handler(message, 3, False, True),
so it is a fatal exit without an alert; modify-in-progress and
restore-in-progress return False; the three complete states return True;
every failed or delete state and any unknown state is a fatal exit with
an alert. -/
def pl_ready_decision : PlState → ReadyDecision
  | .createInProgress => .fatalExit false
  | .createComplete => .ready
  | .createFailed => .fatalExit true
  | .modifyInProgress => .notReady
  | .modifyComplete => .ready
  | .modifyFailed => .fatalExit true
  | .restoreInProgress => .notReady
  | .restoreComplete => .ready
  | .restoreFailed => .fatalExit true
  | .deleteInProgress => .fatalExit true
  | .deleteComplete => .fatalExit true
  | .deleteFailed => .fatalExit true
  | .unknownState => .fatalExit true

variable {A : Type} [DecidableEq A]

/-- get_ips_in_pl: keep exactly the entries whose mask is 32 and strip
the mask, returning the bare addresses. -/
def get_ips_in_pl (entries : List (Entry A)) : List A :=
  (entries.filter (fun e => e.2 == 32)).map (fun e => e.1)

/-- Python set difference set(xs) - set(ys), as the duplicate-free list
of elements of xs that are not in ys. -/
def pySetDiff (xs ys : List A) : List A :=
  xs.dedup.filter (fun a => decide (a ∉ ys))

/-- itemstoadd of lambda_handler: set(sgiplist) - set(pliplist). -/
def itemsToAdd (sg : List A) (entries : List (Entry A)) : List A :=
  pySetDiff sg (get_ips_in_pl entries)

/-- itemstoremove of lambda_handler: set(pliplist) - set(sgiplist). -/
def itemsToRemove (sg : List A) (entries : List (Entry A)) : List A :=
  pySetDiff (get_ips_in_pl entries) sg

/-- newpllength of lambda_handler: len(pliplist) + len(itemstoadd) -
len(itemstoremove). -/
def newPlLength (sg : List A) (entries : List (Entry A)) : Int :=
  ((get_ips_in_pl entries).length : Int)
    + ((itemsToAdd sg entries).length : Int)
    - ((itemsToRemove sg entries).length : Int)

/-- Turn a list of addresses into /32 CIDR entries, as the loops
building entriestoadd and entriestoremove do. -/
def toCidr (ips : List A) : List (Entry A) :=
  ips.map (fun a => (a, 32))

/-- Fuel-driven recursion underlying `chunks99`; the fuel is an upper
bound on the list length, so the middle case is never reached when the
fuel is adequate. -/
def chunksFuel : Nat → List (Entry A) → List (List (Entry A))
  | _, [] => []
  | 0, l => [l]
  | fuel + 1, a :: l => (a :: l.take 98) :: chunksFuel fuel (l.drop 98)

/-- Pagination of an entry list into consecutive slices of at most 99
elements, as the slice comprehension with stride 99 does. -/
def chunks99 (l : List (Entry A)) : List (List (Entry A)) :=
  chunksFuel l.length l

/-- Per-page loop body of remove_cidr_from_pl: for each page, wait until
ready, re-read the version via pl_info, and issue a remove-only call
carrying that fresh version; the returned version advances the state. -/
def runRemovePages : List (List (Entry A)) → MutState A → MutState A × List (Event A)
  | [], s => (s, [])
  | page :: rest, s =>
    let c : ApiCall A := ⟨some s.version, [], page, none, s.version⟩
    let s' : MutState A := ⟨s.entries.filter (fun e => decide (e ∉ page)), s.maxEnt, s.version + 1⟩
    let r := runRemovePages rest s'
    (r.1, Event.waitReady :: Event.readVersion s.version :: Event.call c :: r.2)

/-- Per-page loop body of add_cidr_to_pl, analogous to the remove loop
but issuing add-only calls. -/
def runAddPages : List (List (Entry A)) → MutState A → MutState A × List (Event A)
  | [], s => (s, [])
  | page :: rest, s =>
    let c : ApiCall A := ⟨some s.version, page, [], none, s.version⟩
    let s' : MutState A := ⟨s.entries ++ page, s.maxEnt, s.version + 1⟩
    let r := runAddPages rest s'
    (r.1, Event.waitReady :: Event.readVersion s.version :: Event.call c :: r.2)

/-- remove_cidr_from_pl: build the /32 entries, paginate into slices of
at most 99, and run the per-page loop.  The version parameter of the
source function is used only in log text and is re-read before each
call, so it does not appear here. -/
def remove_cidr_from_pl (ips : List A) (s : MutState A) : MutState A × List (Event A) :=
  runRemovePages (chunks99 (toCidr ips)) s

/-- add_cidr_to_pl, analogous to remove_cidr_from_pl. -/
def add_cidr_to_pl (ips : List A) (s : MutState A) : MutState A × List (Event A) :=
  runAddPages (chunks99 (toCidr ips)) s

/-- update_cidrs_in_pl: one combined call carrying the full add set and
the full remove set, using exactly the version value passed in by the
caller (no re-read happens inside this function). -/
def update_cidrs_in_pl (ipstoremove ipstoadd : List A) (version : Nat) (s : MutState A) :
    MutState A × List (Event A) :=
  let entriestoadd := toCidr ipstoadd
  let entriestoremove := toCidr ipstoremove
  let c : ApiCall A := ⟨some version, entriestoadd, entriestoremove, none, s.version⟩
  (⟨(s.entries.filter (fun e => decide (e ∉ entriestoremove))) ++ entriestoadd,
    s.maxEnt, s.version + 1⟩,
   [Event.call c])

/-- Python int() applied to a rational value: truncation toward zero. -/
def pyTrunc (x : ℚ) : Int :=
  if 0 ≤ x then ⌊x⌋ else -⌊-x⌋

/-- Capacity computation of pl_resize: the target is the ceiling of
newplsize divided by the configured max-utilization fraction; if the
target exceeds the current quota, a warning is raised (the Bool) and the
applied value is int(currentquota - 1). -/
def pl_resize_plan (currentquota : ℚ) (newplsize : Int) (r : ℚ) : Int × Bool :=
  let newmaxent : Int := ⌈(newplsize : ℚ) / r⌉
  if (newmaxent : ℚ) > currentquota then (pyTrunc (currentquota - 1), true)
  else (newmaxent, false)

/-- pl_resize: issue one modify_managed_prefix_list call carrying only
MaxEntries.  The call carries no CurrentVersion argument.  The entries
are untouched and a capacity-only change does not advance the entry
version in this model. -/
def pl_resize (currentquota : ℚ) (newplsize : Int) (r : ℚ) (s : MutState A) :
    MutState A × List (Event A) × Bool :=
  let plan := pl_resize_plan currentquota newplsize r
  (⟨s.entries, plan.1, s.version⟩,
   [Event.call ⟨none, [], [], some plan.1, s.version⟩],
   plan.2)

/-- Entry-mutation stage of lambda_handler (the branch taken when no
resize is needed): the combined single-call path when something changed
and both sets have fewer than 100 elements; the paginated path when
something changed and either set has more than 100 elements, removes
first and adds second, each guarded by its own emptiness test; otherwise
no call at all.  The combined call carries the version from the pl_info
read done near the start of the handler, which is the version of the
state passed in here. -/
def batchPhase (toAdd toRemove : List A) (s : MutState A) : MutState A × List (Event A) :=
  if (toAdd.length > 0 ∨ toRemove.length > 0) ∧ toAdd.length < 100 ∧ toRemove.length < 100 then
    let res := update_cidrs_in_pl toRemove toAdd s.version s
    (res.1, Event.waitReady :: res.2)
  else if (toAdd.length > 0 ∨ toRemove.length > 0)
      ∧ (toAdd.length > 100 ∨ toRemove.length > 100) then
    let p1 :=
      if toRemove.length > 0 then
        let rr := remove_cidr_from_pl toRemove s
        (rr.1, Event.waitReady :: rr.2)
      else (s, ([] : List (Event A)))
    let p2 :=
      if toAdd.length > 0 then
        let ra := add_cidr_to_pl toAdd p1.1
        (ra.1, Event.waitReady :: Event.readVersion p1.1.version :: ra.2)
      else (p1.1, ([] : List (Event A)))
    (p2.1, p1.2 ++ p2.2)
  else
    (s, [])

/-- One reconciliation pass of lambda_handler after input validation,
over a ready resource with succeeding remote calls: read the membership
and the prefix list, read MaxEntries and the version via pl_info, read
the quota, abort fatally when quota - newpllength < 1, warn when the
utilization fraction newpllength / quota exceeds the threshold, resize
(and do nothing else) when MaxEntries < newpllength, and otherwise run
the entry-mutation stage; every non-fatal completion returns the final
success message. -/
def lambdaSync (sg : List A) (s : MutState A) (q : Int) (r : ℚ) : SyncOutput A :=
  if q - newPlLength sg s.entries < 1 then
    ⟨SyncResult.fatalQuotaExceeded, s.entries, s.maxEnt, s.version,
     [Event.readVersion s.version], []⟩
  else
    let warns := if ((newPlLength sg s.entries : Int) : ℚ) / (q : ℚ) > r then
        [NfWarning.utilizationThreshold] else []
    if s.maxEnt < newPlLength sg s.entries then
      let res := pl_resize (q : ℚ) (newPlLength sg s.entries) r s
      ⟨SyncResult.success, res.1.entries, res.1.maxEnt, res.1.version,
       Event.readVersion s.version :: (res.2.1 ++ [Event.waitReady]),
       warns ++ (if res.2.2 then [NfWarning.resizeClipped] else [])⟩
    else
      let bp := batchPhase (itemsToAdd sg s.entries) (itemsToRemove sg s.entries) s
      ⟨SyncResult.success, bp.1.entries, bp.1.maxEnt, bp.1.version,
       Event.readVersion s.version :: bp.2, warns⟩

/-- The mutating calls recorded in a trace, in order. -/
def callsOf (t : List (Event A)) : List (ApiCall A) :=
  t.filterMap (fun e =>
    match e with
    | Event.call c => some c
    | _ => none)

/-- Checks that once a call carrying add entries has been issued, no
later call carries remove entries: all removes precede all adds. -/
def noRemoveAfterAdd (cs : List (ApiCall A)) : Bool :=
  (cs.dropWhile (fun c => c.addEntries.isEmpty)).all (fun c => c.removeEntries.isEmpty)

theorem mem_pySetDiff {xs ys : List A} {a : A} :
    a ∈ pySetDiff xs ys ↔ a ∈ xs ∧ a ∉ ys := by
  simp [pySetDiff, List.mem_filter, List.mem_dedup]

theorem toFinset_pySetDiff (xs ys : List A) :
    (pySetDiff xs ys).toFinset = xs.toFinset \ ys.toFinset := by
  ext a
  simp [mem_pySetDiff]

theorem pySetDiff_nil_iff {xs ys : List A} :
    pySetDiff xs ys = [] ↔ ∀ a ∈ xs, a ∈ ys := by
  rw [List.eq_nil_iff_forall_not_mem]
  constructor
  · intro h a ha
    by_contra hn
    exact h a (mem_pySetDiff.mpr ⟨ha, hn⟩)
  · intro h a ha
    obtain ⟨h1, h2⟩ := mem_pySetDiff.mp ha
    exact h2 (h a h1)

theorem mem_get_ips_in_pl {entries : List (Entry A)} {a : A} :
    a ∈ get_ips_in_pl entries ↔ (a, 32) ∈ entries := by
  constructor
  · intro h
    simp only [get_ips_in_pl, List.mem_map, List.mem_filter, beq_iff_eq] at h
    obtain ⟨⟨b, m⟩, ⟨hmem, hm⟩, hb⟩ := h
    subst hb
    subst hm
    exact hmem
  · intro h
    simp only [get_ips_in_pl, List.mem_map, List.mem_filter, beq_iff_eq]
    exact ⟨(a, 32), ⟨h, rfl⟩, rfl⟩

theorem mem_toCidr {ips : List A} {e : Entry A} :
    e ∈ toCidr ips ↔ e.2 = 32 ∧ e.1 ∈ ips := by
  rcases e with ⟨a, m⟩
  simp only [toCidr, List.mem_map, Prod.mk.injEq]
  constructor
  · rintro ⟨b, hb, rfl, rfl⟩
    exact ⟨rfl, hb⟩
  · rintro ⟨hm, ha⟩
    exact ⟨a, ha, rfl, hm.symm⟩

theorem chunksFuel_flatten :
    ∀ (f : Nat) (l : List (Entry A)), l.length ≤ f → (chunksFuel f l).flatten = l := by
  intro f
  induction f with
  | zero =>
    intro l h
    interval_cases hl : l.length
    · rw [List.length_eq_zero.mp hl]
      rfl
  | succ f ih =>
    intro l h
    cases l with
    | nil => rfl
    | cons a t =>
      simp only [chunksFuel, List.flatten_cons]
      rw [ih (t.drop 98) (by simp only [List.length_drop]; simp only [List.length_cons] at h; omega)]
      simp [List.take_append_drop]

theorem chunks99_flatten (l : List (Entry A)) : (chunks99 l).flatten = l :=
  chunksFuel_flatten _ _ le_rfl

theorem chunksFuel_length_le :
    ∀ (f : Nat) (l : List (Entry A)) (ch : List (Entry A)),
      l.length ≤ f → ch ∈ chunksFuel f l → ch.length ≤ 99 := by
  intro f
  induction f with
  | zero =>
    intro l ch hf h
    rw [List.length_eq_zero.mp (Nat.le_zero.mp hf)] at h
    simp [chunksFuel] at h
  | succ f ih =>
    intro l ch hf h
    cases l with
    | nil => simp [chunksFuel] at h
    | cons a t =>
      simp only [chunksFuel, List.mem_cons] at h
      rcases h with h | h
      · subst h
        simp only [List.length_cons, List.length_take]
        omega
      · exact ih (t.drop 98) ch
          (by simp only [List.length_drop]; simp only [List.length_cons] at hf; omega) h

theorem chunks99_length_le {l : List (Entry A)} {ch : List (Entry A)}
    (h : ch ∈ chunks99 l) : ch.length ≤ 99 :=
  chunksFuel_length_le _ _ _ le_rfl h

theorem chunks99_cons (a : Entry A) (l : List (Entry A)) :
    chunks99 (a :: l) = (a :: l.take 98) :: chunks99 (l.drop 98) := by
  have hgen : ∀ (f₁ f₂ : Nat) (m : List (Entry A)),
      m.length ≤ f₁ → m.length ≤ f₂ → chunksFuel f₁ m = chunksFuel f₂ m := by
    intro f₁
    induction f₁ with
    | zero =>
      intro f₂ m h₁ h₂
      rw [List.length_eq_zero.mp (Nat.le_zero.mp h₁)]
      cases f₂ <;> rfl
    | succ f₁ ih =>
      intro f₂ m h₁ h₂
      cases m with
      | nil => cases f₂ <;> rfl
      | cons b t =>
        cases f₂ with
        | zero => simp at h₂
        | succ f₂ =>
          simp only [chunksFuel, List.cons.injEq, true_and]
          exact ih f₂ (t.drop 98)
            (by simp only [List.length_drop]; simp only [List.length_cons] at h₁; omega)
            (by simp only [List.length_drop]; simp only [List.length_cons] at h₂; omega)
  show chunksFuel (a :: l).length (a :: l) = _
  simp only [List.length_cons, chunksFuel, List.cons.injEq, true_and]
  exact hgen l.length (l.drop 98).length (l.drop 98)
    (by simp only [List.length_drop]; omega) le_rfl

theorem callsOf_nil : callsOf ([] : List (Event A)) = [] := rfl

theorem callsOf_cons_wait (t : List (Event A)) :
    callsOf (Event.waitReady :: t) = callsOf t := rfl

theorem callsOf_cons_read (v : Nat) (t : List (Event A)) :
    callsOf (Event.readVersion v :: t) = callsOf t := rfl

theorem callsOf_cons_call (c : ApiCall A) (t : List (Event A)) :
    callsOf (Event.call c :: t) = c :: callsOf t := rfl

theorem callsOf_append (t₁ t₂ : List (Event A)) :
    callsOf (t₁ ++ t₂) = callsOf t₁ ++ callsOf t₂ :=
  List.filterMap_append t₁ t₂ _

theorem runRemovePages_entries :
    ∀ (pages : List (List (Entry A))) (s : MutState A),
      (runRemovePages pages s).1.entries
        = s.entries.filter (fun e => decide (e ∉ pages.flatten)) := by
  intro pages
  induction pages with
  | nil =>
    intro s
    simp [runRemovePages]
  | cons page rest ih =>
    intro s
    have hpred : (fun e => decide (e ∉ rest.flatten) && decide (e ∉ page))
        = (fun e : Entry A => decide (e ∉ (page :: rest).flatten)) := by
      funext e
      by_cases h1 : e ∈ page <;> by_cases h2 : e ∈ rest.flatten <;>
        simp [h1, h2, List.flatten_cons]
    simp only [runRemovePages]
    rw [ih]
    dsimp only
    rw [List.filter_filter, hpred]

theorem runRemovePages_maxEnt :
    ∀ (pages : List (List (Entry A))) (s : MutState A),
      (runRemovePages pages s).1.maxEnt = s.maxEnt := by
  intro pages
  induction pages with
  | nil => intro s; rfl
  | cons page rest ih => intro s; simp only [runRemovePages]; rw [ih]

theorem runAddPages_entries :
    ∀ (pages : List (List (Entry A))) (s : MutState A),
      (runAddPages pages s).1.entries = s.entries ++ pages.flatten := by
  intro pages
  induction pages with
  | nil => intro s; simp [runAddPages]
  | cons page rest ih =>
    intro s
    simp only [runAddPages]
    rw [ih]
    dsimp only
    rw [List.flatten_cons, List.append_assoc]

theorem runRemovePages_calls :
    ∀ (pages : List (List (Entry A))) (s : MutState A) (c : ApiCall A),
      c ∈ callsOf (runRemovePages pages s).2 →
      c.addEntries = [] ∧ c.removeEntries ∈ pages ∧ c.maxEntries = none
        ∧ c.currentVersion = some c.versionAtCall := by
  intro pages
  induction pages with
  | nil => intro s c h; simp [runRemovePages, callsOf_nil] at h
  | cons page rest ih =>
    intro s c h
    simp only [runRemovePages] at h
    rw [callsOf_cons_wait, callsOf_cons_read, callsOf_cons_call] at h
    rcases List.mem_cons.mp h with h | h
    · subst h
      exact ⟨rfl, List.mem_cons_self _ _, rfl, rfl⟩
    · obtain ⟨h1, h2, h3, h4⟩ := ih _ c h
      exact ⟨h1, List.mem_cons_of_mem _ h2, h3, h4⟩

theorem runAddPages_calls :
    ∀ (pages : List (List (Entry A))) (s : MutState A) (c : ApiCall A),
      c ∈ callsOf (runAddPages pages s).2 →
      c.removeEntries = [] ∧ c.addEntries ∈ pages ∧ c.maxEntries = none
        ∧ c.currentVersion = some c.versionAtCall := by
  intro pages
  induction pages with
  | nil => intro s c h; simp [runAddPages, callsOf_nil] at h
  | cons page rest ih =>
    intro s c h
    simp only [runAddPages] at h
    rw [callsOf_cons_wait, callsOf_cons_read, callsOf_cons_call] at h
    rcases List.mem_cons.mp h with h | h
    · subst h
      exact ⟨rfl, List.mem_cons_self _ _, rfl, rfl⟩
    · obtain ⟨h1, h2, h3, h4⟩ := ih _ c h
      exact ⟨h1, List.mem_cons_of_mem _ h2, h3, h4⟩

theorem all_dropWhile (p q : ApiCall A → Bool) (l : List (ApiCall A))
    (h : ∀ c ∈ l, q c = true) : (l.dropWhile p).all q = true :=
  List.all_eq_true.mpr (fun c hc => h c (List.Sublist.mem hc (List.dropWhile_sublist p)))

theorem noRemoveAfterAdd_append (l₁ l₂ : List (ApiCall A))
    (h₁ : ∀ c ∈ l₁, c.addEntries = []) (h₂ : ∀ c ∈ l₂, c.removeEntries = []) :
    noRemoveAfterAdd (l₁ ++ l₂) = true := by
  induction l₁ with
  | nil =>
    unfold noRemoveAfterAdd
    rw [List.nil_append]
    exact all_dropWhile _ _ _ (fun c hc => by rw [h₂ c hc]; rfl)
  | cons a t ih =>
    unfold noRemoveAfterAdd
    rw [List.cons_append, List.dropWhile_cons]
    have ha : a.addEntries.isEmpty = true := by
      rw [h₁ a (List.mem_cons_self _ _)]
      rfl
    rw [ha, if_pos rfl]
    exact ih (fun c hc => h₁ c (List.mem_cons_of_mem _ hc))

theorem toCidr_nil : toCidr ([] : List A) = [] := rfl

theorem toCidr_length (ips : List A) : (toCidr ips).length = ips.length :=
  List.length_map _ _

theorem filter_not_mem_nil (l : List (Entry A)) :
    l.filter (fun e => decide (e ∉ ([] : List (Entry A)))) = l := by
  simp

theorem remove_cidr_from_pl_entries (ips : List A) (s : MutState A) :
    (remove_cidr_from_pl ips s).1.entries
      = s.entries.filter (fun e => decide (e ∉ toCidr ips)) := by
  unfold remove_cidr_from_pl
  rw [runRemovePages_entries, chunks99_flatten]

theorem add_cidr_to_pl_entries (ips : List A) (s : MutState A) :
    (add_cidr_to_pl ips s).1.entries = s.entries ++ toCidr ips := by
  unfold add_cidr_to_pl
  rw [runAddPages_entries, chunks99_flatten]

theorem batchPhase_entries (toA toR : List A) (s : MutState A)
    (h : (toA.length < 100 ∧ toR.length < 100) ∨ toA.length > 100 ∨ toR.length > 100) :
    (batchPhase toA toR s).1.entries
      = (s.entries.filter (fun e => decide (e ∉ toCidr toR))) ++ toCidr toA := by
  by_cases h1 : (toA.length > 0 ∨ toR.length > 0) ∧ toA.length < 100 ∧ toR.length < 100
  · rw [batchPhase, if_pos h1]
    rfl
  · by_cases h2 : (toA.length > 0 ∨ toR.length > 0) ∧ (toA.length > 100 ∨ toR.length > 100)
    · rw [batchPhase, if_neg h1, if_pos h2]
      dsimp only
      by_cases hR : toR.length > 0
      · by_cases hA : toA.length > 0
        · rw [if_pos hR, if_pos hA]
          dsimp only
          rw [add_cidr_to_pl_entries, remove_cidr_from_pl_entries]
        · rw [if_pos hR, if_neg hA]
          dsimp only
          rw [remove_cidr_from_pl_entries]
          have : toA = [] := List.length_eq_zero.mp (by omega)
          rw [this, toCidr_nil, List.append_nil]
      · by_cases hA : toA.length > 0
        · rw [if_neg hR, if_pos hA]
          dsimp only
          rw [add_cidr_to_pl_entries]
          have : toR = [] := List.length_eq_zero.mp (by omega)
          rw [this, toCidr_nil, filter_not_mem_nil]
        · exfalso
          rcases h2.1 with h' | h' <;> omega
    · rw [batchPhase, if_neg h1, if_neg h2]
      have hA : toA = [] := by
        rcases h with ⟨ha, hr⟩ | hbig | hbig
        · refine List.length_eq_zero.mp ?_
          by_contra hn
          exact h1 ⟨Or.inl (by omega), ha, hr⟩
        · exact absurd ⟨Or.inl (by omega), Or.inl hbig⟩ h2
        · exact absurd ⟨Or.inr (by omega), Or.inr hbig⟩ h2
      have hR : toR = [] := by
        rcases h with ⟨ha, hr⟩ | hbig | hbig
        · refine List.length_eq_zero.mp ?_
          by_contra hn
          exact h1 ⟨Or.inr (by omega), ha, hr⟩
        · exact absurd ⟨Or.inl (by omega), Or.inl hbig⟩ h2
        · exact absurd ⟨Or.inr (by omega), Or.inr hbig⟩ h2
      rw [hA, hR, toCidr_nil, filter_not_mem_nil, List.append_nil]

theorem batchPhase_calls (toA toR : List A) (s : MutState A) (c : ApiCall A)
    (h : c ∈ callsOf (batchPhase toA toR s).2) :
    (c = ⟨some s.version, toCidr toA, toCidr toR, none, s.version⟩
       ∧ toA.length < 100 ∧ toR.length < 100)
    ∨ (c.addEntries = [] ∧ c.removeEntries ∈ chunks99 (toCidr toR)
       ∧ c.maxEntries = none ∧ c.currentVersion = some c.versionAtCall)
    ∨ (c.removeEntries = [] ∧ c.addEntries ∈ chunks99 (toCidr toA)
       ∧ c.maxEntries = none ∧ c.currentVersion = some c.versionAtCall) := by
  by_cases h1 : (toA.length > 0 ∨ toR.length > 0) ∧ toA.length < 100 ∧ toR.length < 100
  · rw [batchPhase, if_pos h1] at h
    dsimp only [update_cidrs_in_pl] at h
    rw [callsOf_cons_wait, callsOf_cons_call, callsOf_nil] at h
    rcases List.mem_cons.mp h with h | h
    · exact Or.inl ⟨h, h1.2⟩
    · simp at h
  · by_cases h2 : (toA.length > 0 ∨ toR.length > 0) ∧ (toA.length > 100 ∨ toR.length > 100)
    · rw [batchPhase, if_neg h1, if_pos h2] at h
      dsimp only at h
      rw [callsOf_append] at h
      rcases List.mem_append.mp h with h | h
      · by_cases hR : toR.length > 0
        · rw [if_pos hR] at h
          dsimp only at h
          rw [callsOf_cons_wait] at h
          unfold remove_cidr_from_pl at h
          exact Or.inr (Or.inl (by
            obtain ⟨ha, hb, hc, hd⟩ := runRemovePages_calls _ _ _ h
            exact ⟨ha, hb, hc, hd⟩))
        · rw [if_neg hR] at h
          rw [callsOf_nil] at h
          simp at h
      · by_cases hA : toA.length > 0
        · rw [if_pos hA] at h
          dsimp only at h
          rw [callsOf_cons_wait, callsOf_cons_read] at h
          unfold add_cidr_to_pl at h
          exact Or.inr (Or.inr (by
            obtain ⟨ha, hb, hc, hd⟩ := runAddPages_calls _ _ _ h
            exact ⟨ha, hb, hc, hd⟩))
        · rw [if_neg hA] at h
          rw [callsOf_nil] at h
          simp at h
    · rw [batchPhase, if_neg h1, if_neg h2] at h
      rw [callsOf_nil] at h
      simp at h

theorem batchPhase_paginated_order (toA toR : List A) (s : MutState A)
    (h1 : ¬ ((toA.length > 0 ∨ toR.length > 0) ∧ toA.length < 100 ∧ toR.length < 100))
    (h2 : (toA.length > 0 ∨ toR.length > 0) ∧ (toA.length > 100 ∨ toR.length > 100)) :
    noRemoveAfterAdd (callsOf (batchPhase toA toR s).2) = true := by
  rw [batchPhase, if_neg h1, if_pos h2]
  dsimp only
  rw [callsOf_append]
  apply noRemoveAfterAdd_append
  · intro c hc
    by_cases hR : toR.length > 0
    · rw [if_pos hR] at hc
      dsimp only at hc
      rw [callsOf_cons_wait] at hc
      unfold remove_cidr_from_pl at hc
      exact (runRemovePages_calls _ _ _ hc).1
    · rw [if_neg hR, callsOf_nil] at hc
      simp at hc
  · intro c hc
    by_cases hA : toA.length > 0
    · rw [if_pos hA] at hc
      dsimp only at hc
      rw [callsOf_cons_wait, callsOf_cons_read] at hc
      unfold add_cidr_to_pl at hc
      exact (runAddPages_calls _ _ _ hc).1
    · rw [if_neg hA, callsOf_nil] at hc
      simp at hc

theorem batchPhase_preserves (toA toR : List A) (s : MutState A) (e : Entry A)
    (he : e ∈ s.entries) (hm : e.2 ≠ 32) : e ∈ (batchPhase toA toR s).1.entries := by
  have hfilter : ∀ (l : List (Entry A)) (ips : List A),
      e ∈ l → e ∈ l.filter (fun x => decide (x ∉ toCidr ips)) := by
    intro l ips hl
    refine List.mem_filter.mpr ⟨hl, ?_⟩
    rw [decide_eq_true_eq]
    intro hcontr
    exact hm (mem_toCidr.mp hcontr).1
  by_cases h1 : (toA.length > 0 ∨ toR.length > 0) ∧ toA.length < 100 ∧ toR.length < 100
  · rw [batchPhase, if_pos h1]
    dsimp only [update_cidrs_in_pl]
    exact List.mem_append_left _ (hfilter _ _ he)
  · by_cases h2 : (toA.length > 0 ∨ toR.length > 0) ∧ (toA.length > 100 ∨ toR.length > 100)
    · rw [batchPhase, if_neg h1, if_pos h2]
      dsimp only
      have hp1 : e ∈ (if toR.length > 0 then
          (let rr := remove_cidr_from_pl toR s
           (rr.1, Event.waitReady :: rr.2))
        else (s, ([] : List (Event A)))).1.entries := by
        by_cases hR : toR.length > 0
        · rw [if_pos hR]
          dsimp only
          rw [remove_cidr_from_pl_entries]
          exact hfilter _ _ he
        · rw [if_neg hR]
          exact he
      by_cases hA : toA.length > 0
      · rw [if_pos hA]
        dsimp only
        rw [add_cidr_to_pl_entries]
        exact List.mem_append_left _ hp1
      · rw [if_neg hA]
        exact hp1
    · rw [batchPhase, if_neg h1, if_neg h2]
      exact he

theorem lambdaSync_result (sg : List A) (s : MutState A) (q : Int) (r : ℚ) :
    (lambdaSync sg s q r).result
      = if q - newPlLength sg s.entries < 1 then SyncResult.fatalQuotaExceeded
        else SyncResult.success := by
  unfold lambdaSync
  split_ifs <;> rfl

theorem lambdaSync_fatal_no_calls (sg : List A) (s : MutState A) (q : Int) (r : ℚ)
    (h : q - newPlLength sg s.entries < 1) :
    callsOf (lambdaSync sg s q r).trace = [] := by
  unfold lambdaSync
  rw [if_pos h]
  rfl

theorem lambdaSync_calls (sg : List A) (s : MutState A) (q : Int) (r : ℚ) (c : ApiCall A)
    (h : c ∈ callsOf (lambdaSync sg s q r).trace) :
    (c.addEntries = [] ∧ c.removeEntries = [] ∧ c.currentVersion = none
       ∧ c.maxEntries = some (pl_resize_plan (q : ℚ) (newPlLength sg s.entries) r).1
       ∧ s.maxEnt < newPlLength sg s.entries)
    ∨ (c = ⟨some s.version, toCidr (itemsToAdd sg s.entries),
            toCidr (itemsToRemove sg s.entries), none, s.version⟩
       ∧ (itemsToAdd sg s.entries).length < 100 ∧ (itemsToRemove sg s.entries).length < 100)
    ∨ (c.addEntries = [] ∧ c.removeEntries ∈ chunks99 (toCidr (itemsToRemove sg s.entries))
       ∧ c.maxEntries = none ∧ c.currentVersion = some c.versionAtCall)
    ∨ (c.removeEntries = [] ∧ c.addEntries ∈ chunks99 (toCidr (itemsToAdd sg s.entries))
       ∧ c.maxEntries = none ∧ c.currentVersion = some c.versionAtCall) := by
  unfold lambdaSync at h
  by_cases hq : q - newPlLength sg s.entries < 1
  · rw [if_pos hq] at h
    simp only [callsOf] at h
    simp at h
  · rw [if_neg hq] at h
    dsimp only at h
    by_cases hcap : s.maxEnt < newPlLength sg s.entries
    · rw [if_pos hcap] at h
      dsimp only [pl_resize] at h
      rw [callsOf_cons_read, callsOf_append, callsOf_cons_call, callsOf_nil] at h
      rcases List.mem_append.mp h with h | h
      · rcases List.mem_cons.mp h with h | h
        · subst h
          exact Or.inl ⟨rfl, rfl, rfl, rfl, hcap⟩
        · simp at h
      · rw [callsOf_cons_wait, callsOf_nil] at h
        simp at h
    · rw [if_neg hcap] at h
      dsimp only at h
      rw [callsOf_cons_read] at h
      exact Or.inr (batchPhase_calls _ _ _ _ h)

theorem lambdaSync_entries_of (sg : List A) (s : MutState A) (q : Int) (r : ℚ)
    (hq : ¬ (q - newPlLength sg s.entries < 1))
    (hcap : ¬ (s.maxEnt < newPlLength sg s.entries))
    (hsize : ((itemsToAdd sg s.entries).length < 100 ∧ (itemsToRemove sg s.entries).length < 100)
      ∨ (itemsToAdd sg s.entries).length > 100 ∨ (itemsToRemove sg s.entries).length > 100) :
    (lambdaSync sg s q r).entries
      = (s.entries.filter (fun e => decide (e ∉ toCidr (itemsToRemove sg s.entries))))
          ++ toCidr (itemsToAdd sg s.entries) := by
  unfold lambdaSync
  rw [if_neg hq]
  dsimp only
  rw [if_neg hcap]
  exact batchPhase_entries _ _ _ hsize

theorem lambdaSync_preserves (sg : List A) (s : MutState A) (q : Int) (r : ℚ) (e : Entry A)
    (he : e ∈ s.entries) (hm : e.2 ≠ 32) : e ∈ (lambdaSync sg s q r).entries := by
  unfold lambdaSync
  by_cases hq : q - newPlLength sg s.entries < 1
  · rw [if_pos hq]
    exact he
  · rw [if_neg hq]
    dsimp only
    by_cases hcap : s.maxEnt < newPlLength sg s.entries
    · rw [if_pos hcap]
      exact he
    · rw [if_neg hcap]
      exact batchPhase_preserves _ _ _ _ he hm

theorem final_toFinset (entries : List (Entry A)) (rips aips : List A) :
    (get_ips_in_pl ((entries.filter (fun e => decide (e ∉ toCidr rips))) ++ toCidr aips)).toFinset
      = (((get_ips_in_pl entries).toFinset) \ rips.toFinset) ∪ aips.toFinset := by
  ext a
  simp only [List.mem_toFinset, Finset.mem_union, Finset.mem_sdiff]
  rw [mem_get_ips_in_pl, List.mem_append, List.mem_filter, mem_get_ips_in_pl]
  have h1 : ((a, 32) : Entry A) ∈ toCidr rips ↔ a ∈ rips := by
    rw [mem_toCidr]
    simp
  have h2 : ((a, 32) : Entry A) ∈ toCidr aips ↔ a ∈ aips := by
    rw [mem_toCidr]
    simp
  rw [h2, decide_eq_true_eq, h1]

theorem diff_algebra (D O : Finset A) : (O \ (O \ D)) ∪ (D \ O) = D := by
  ext a
  simp only [Finset.mem_union, Finset.mem_sdiff]
  tauto

theorem pyTrunc_intCast (m : Int) : pyTrunc ((m : Int) : ℚ) = m := by
  unfold pyTrunc
  split_ifs with h
  · exact Int.floor_intCast m
  · rw [show (-(m : ℚ)) = ((-m : Int) : ℚ) by push_cast; ring, Int.floor_intCast]
    ring

theorem pl_resize_plan_int (n k : Int) (r : ℚ) :
    pl_resize_plan (k : ℚ) n r
      = if k < Int.ceil ((n : ℚ) / r) then (k - 1, true)
        else (Int.ceil ((n : ℚ) / r), false) := by
  unfold pl_resize_plan
  by_cases h : k < Int.ceil ((n : ℚ) / r)
  · rw [if_pos (by exact_mod_cast Int.cast_lt.mpr h), if_pos h]
    rw [show ((k : ℚ) - 1) = ((k - 1 : Int) : ℚ) by push_cast; ring, pyTrunc_intCast]
  · rw [if_neg (by
      intro hcontr
      exact h (Int.cast_lt.mp (by exact_mod_cast hcontr))), if_neg h]

theorem mem_callsOf {t : List (Event A)} {c : ApiCall A} :
    c ∈ callsOf t ↔ Event.call c ∈ t := by
  induction t with
  | nil => simp [callsOf]
  | cons e rest ih =>
    cases e with
    | readVersion v =>
      rw [callsOf_cons_read, ih]
      simp
    | waitReady =>
      rw [callsOf_cons_wait, ih]
      simp
    | call c0 =>
      rw [callsOf_cons_call]
      simp [ih]

set_option maxRecDepth 100000
set_option maxHeartbeats 2000000

/-- C7: for every desired membership list and every observed prefix list
content, the diff computed by the pass satisfies toAdd = D minus O and
toRemove = O minus D as sets, and the two sets are disjoint; the
computation is a pure total function of its two inputs with no error
case. -/
theorem c7_diff_engine (sg : List A) (entries : List (Entry A)) :
    (itemsToAdd sg entries).toFinset
        = sg.toFinset \ (get_ips_in_pl entries).toFinset
    ∧ (itemsToRemove sg entries).toFinset
        = (get_ips_in_pl entries).toFinset \ sg.toFinset
    ∧ Disjoint (itemsToAdd sg entries).toFinset (itemsToRemove sg entries).toFinset := by
  refine ⟨toFinset_pySetDiff _ _, toFinset_pySetDiff _ _, ?_⟩
  unfold itemsToAdd itemsToRemove
  rw [toFinset_pySetDiff, toFinset_pySetDiff]
  exact disjoint_sdiff_sdiff

/-- C3: evaluation of the pl_ready dispatch on the three in-progress
lifecycle states: modify-in-progress and restore-in-progress report not
ready (the caller then sleeps one second and retries), but
create-in-progress does not — the code terminates the pass fatally
there (log_handler with severity 3 and terminate True, without an SNS
alert), contradicting both the specified table and the comment above the
function, which says states that naturally become ready later should
return False. -/
theorem c3_pl_ready_in_progress :
    pl_ready_decision PlState.modifyInProgress = ReadyDecision.notReady
    ∧ pl_ready_decision PlState.restoreInProgress = ReadyDecision.notReady
    ∧ pl_ready_decision PlState.createInProgress = ReadyDecision.fatalExit false :=
  ⟨rfl, rfl, rfl⟩

/-- C6: the resizer computes the target capacity as the ceiling of
finalSize divided by the padding fraction, and when the target strictly
exceeds the quota it clips the applied value to quota minus one and
raises the non-fatal warning flag (and only then); with finalSize 150,
quota 200 and fraction 9/10 the target is 167 and no clip happens, and
with quota 160 the raw 167 is clipped to 159 with the warning raised. -/
theorem c6_capacity_planner :
    (∀ (n k : Int) (r : ℚ),
        pl_resize_plan (k : ℚ) n r
          = if k < Int.ceil ((n : ℚ) / r) then (k - 1, true)
            else (Int.ceil ((n : ℚ) / r), false))
    ∧ pl_resize_plan (200 : ℚ) 150 (9/10) = (167, false)
    ∧ pl_resize_plan (160 : ℚ) 150 (9/10) = (159, true) := by
  have hceil : Int.ceil ((Int.cast (150 : Int) : ℚ) / (9/10)) = 167 := by
    norm_num [Int.ceil_eq_iff]
  refine ⟨pl_resize_plan_int, ?_, ?_⟩
  · rw [show (200 : ℚ) = ((200 : Int) : ℚ) by norm_num, pl_resize_plan_int, hceil]
    norm_num
  · rw [show (160 : ℚ) = ((160 : Int) : ℚ) by norm_num, pl_resize_plan_int, hceil]
    norm_num

/-- C5: the reconciler evaluates quota minus finalSize less than one
after the reads and before any resize or entry mutation, and the pass
aborts fatally exactly when the condition holds, with no mutating call
issued in that case; with finalSize 199 and quota 200 the pass proceeds
to success, and with finalSize 200 and quota 200 it aborts fatally. -/
theorem c5_quota_abort :
    (∀ (sg : List Nat) (s : MutState Nat) (q : Int) (r : ℚ),
        ((lambdaSync sg s q r).result = SyncResult.fatalQuotaExceeded
          ↔ q - newPlLength sg s.entries < 1)
        ∧ (q - newPlLength sg s.entries < 1 → callsOf (lambdaSync sg s q r).trace = []))
    ∧ (lambdaSync (List.range 199)
        (⟨(List.range 199).map (fun a => (a, 32)), 1000, 0⟩ : MutState Nat) 200 (9/10)).result
        = SyncResult.success
    ∧ (lambdaSync (List.range 200)
        (⟨(List.range 200).map (fun a => (a, 32)), 1000, 0⟩ : MutState Nat) 200 (9/10)).result
        = SyncResult.fatalQuotaExceeded := by
  refine ⟨?_, by decide, by decide⟩
  intro sg s q r
  refine ⟨?_, fun h => lambdaSync_fatal_no_calls sg s q r h⟩
  rw [lambdaSync_result]
  by_cases h : q - newPlLength sg s.entries < 1
  · rw [if_pos h]
    exact ⟨fun _ => h, fun _ => rfl⟩
  · rw [if_neg h]
    exact ⟨fun hc => SyncResult.noConfusion hc, fun hc => absurd hc h⟩

/-- C5 witness: at the concrete aborting input the theorem yields that
no mutating call is issued. -/
theorem c5_quota_abort_witness :
    callsOf (lambdaSync (List.range 200)
      (⟨(List.range 200).map (fun a => (a, 32)), 1000, 0⟩ : MutState Nat) 200 (9/10)).trace
      = [] :=
  (c5_quota_abort.1 (List.range 200)
    ⟨(List.range 200).map (fun a => (a, 32)), 1000, 0⟩ 200 (9/10)).2 (by decide)

/-- C2: evaluation of the dispatch at the boundary the claim describes.
With 150 pending additions and no removals the paginated path runs as
claimed, two add-only calls of 99 and 51 entries and no remove call; but
with exactly 100 pending additions neither the combined guard (both
lengths strictly below 100) nor the paginated guard (either length
strictly above 100) holds, so the pass issues no mutating call at all
and still reports success, contradicting the claimed threshold of at
least 100 and the source comment that the fall-through branch means the
prefix list is already up to date. -/
theorem c2_exact_100_gap :
    ((callsOf (lambdaSync (List.range 150) (⟨[], 200, 0⟩ : MutState Nat) 1000 (9/10)).trace).map
        (fun c => (c.addEntries.length, c.removeEntries.length)) = [(99, 0), (51, 0)])
    ∧ (itemsToAdd (List.range 100) ([] : List (Entry Nat))).length = 100
    ∧ (lambdaSync (List.range 100) (⟨[], 100, 0⟩ : MutState Nat) 1000 (9/10)).result
        = SyncResult.success
    ∧ callsOf (lambdaSync (List.range 100) (⟨[], 100, 0⟩ : MutState Nat) 1000 (9/10)).trace
        = [] :=
  ⟨by decide, by decide, by decide, by decide⟩

/-- C9: no mutating call issued by any pass carries more than 99 add
entries or more than 99 remove entries, and the paginated splitting
produces consecutive chunks of length at most 99 whose concatenation is
the input list. -/
theorem c9_entry_cap (sg : List Nat) (s : MutState Nat) (q : Int) (r : ℚ) (c : ApiCall Nat)
    (hc : Event.call c ∈ (lambdaSync sg s q r).trace) :
    (c.addEntries.length ≤ 99 ∧ c.removeEntries.length ≤ 99)
    ∧ ∀ (l : List (Entry Nat)),
        (chunks99 l).flatten = l ∧ ∀ ch ∈ chunks99 l, ch.length ≤ 99 := by
  refine ⟨?_, fun l => ⟨chunks99_flatten l, fun ch hch => chunks99_length_le hch⟩⟩
  rcases lambdaSync_calls sg s q r c (mem_callsOf.mpr hc) with h | h | h | h
  · rw [h.1, h.2.1]
    exact ⟨by simp, by simp⟩
  · obtain ⟨hcdef, ha, hr⟩ := h
    subst hcdef
    refine ⟨?_, ?_⟩
    · show (toCidr (itemsToAdd sg s.entries)).length ≤ 99
      rw [toCidr_length]
      omega
    · show (toCidr (itemsToRemove sg s.entries)).length ≤ 99
      rw [toCidr_length]
      omega
  · rw [h.1]
    exact ⟨by simp, chunks99_length_le h.2.1⟩
  · rw [h.1]
    exact ⟨chunks99_length_le h.2.1, by simp⟩

/-- C9 witness: the theorem applied to the single combined call of the
concrete three-address example. -/
theorem c9_entry_cap_witness :
    ((⟨some 5, [(1, 32)], [(4, 32)], none, 5⟩ : ApiCall Nat).addEntries.length ≤ 99
      ∧ (⟨some 5, [(1, 32)], [(4, 32)], none, 5⟩ : ApiCall Nat).removeEntries.length ≤ 99) :=
  (c9_entry_cap [1, 2, 3] ⟨[(2, 32), (3, 32), (4, 32)], 100, 5⟩ 1000 (9/10)
    ⟨some 5, [(1, 32)], [(4, 32)], none, 5⟩ (by decide)).1

/-- C8: in the paginated path with non-empty add and remove sets, every
remove-only call is issued before any add-only call: once a call
carrying add entries has been issued, no later call carries remove
entries. -/
theorem c8_removes_before_adds (sg : List Nat) (s : MutState Nat) (q : Int) (r : ℚ)
    (hq : ¬ (q - newPlLength sg s.entries < 1))
    (hcap : ¬ (s.maxEnt < newPlLength sg s.entries))
    (hA : (itemsToAdd sg s.entries).length > 0)
    (hR : (itemsToRemove sg s.entries).length > 0)
    (hbig : (itemsToAdd sg s.entries).length > 100
      ∨ (itemsToRemove sg s.entries).length > 100) :
    noRemoveAfterAdd (callsOf (lambdaSync sg s q r).trace) = true := by
  unfold lambdaSync
  rw [if_neg hq]
  dsimp only
  rw [if_neg hcap]
  dsimp only
  rw [callsOf_cons_read]
  apply batchPhase_paginated_order
  · intro hcontr
    rcases hbig with h | h
    · exact absurd hcontr.2.1 (by omega)
    · exact absurd hcontr.2.2 (by omega)
  · exact ⟨Or.inl hA, hbig⟩

/-- C8 witness: a pass with one stale entry to remove and 102 fresh
addresses to add takes the paginated path and drains the remove call
before both add calls. -/
theorem c8_removes_before_adds_witness :
    noRemoveAfterAdd (callsOf (lambdaSync (List.range 102)
      (⟨[(200, 32)], 200, 0⟩ : MutState Nat) 1000 (9/10)).trace) = true :=
  c8_removes_before_adds (List.range 102) ⟨[(200, 32)], 200, 0⟩ 1000 (9/10)
    (by decide) (by decide) (by decide) (by decide) (by decide)

/-- C4 counterexample: the resize pass issues exactly one mutating call,
which carries MaxEntries but no CurrentVersion at all; and in the
combined path the trace is exactly an initial version read, the
readiness wait, then the mutation — no version re-read happens between
the wait and the call, the carried version is the one read before the
wait. -/
theorem c4_counterexample :
    ((callsOf (lambdaSync [1] (⟨[], 0, 0⟩ : MutState Nat) 100 (9/10)).trace).map
        (fun c => (c.currentVersion, c.addEntries, c.removeEntries, c.maxEntries.isSome))
      = [(none, [], [], true)])
    ∧ (lambdaSync [1] (⟨[], 0, 0⟩ : MutState Nat) 100 (9/10)).result = SyncResult.success
    ∧ (lambdaSync [1, 2, 3] (⟨[(2, 32), (3, 32), (4, 32)], 100, 5⟩ : MutState Nat)
        1000 (9/10)).trace
      = [Event.readVersion 5, Event.waitReady,
         Event.call ⟨some 5, [(1, 32)], [(4, 32)], none, 5⟩] :=
  ⟨by decide, by decide, by decide⟩

/-- C4 (amended): every entry-mutating call (each paginated chunk and
the combined update) carries exactly the version the resource has at
the moment of the call, hence a version no older than the one returned
by the most recent read or mutate; the paginated chunks obtain it by
re-reading before each call, while the combined path carries the version
from the initial metadata read, unchanged because no mutation
intervenes; the capacity resize carries no version at all. -/
theorem c4_amended (sg : List Nat) (s : MutState Nat) (q : Int) (r : ℚ) (c : ApiCall Nat)
    (hc : Event.call c ∈ (lambdaSync sg s q r).trace)
    (hentry : c.addEntries ≠ [] ∨ c.removeEntries ≠ []) :
    c.currentVersion = some c.versionAtCall := by
  rcases lambdaSync_calls sg s q r c (mem_callsOf.mpr hc) with h | h | h | h
  · rcases hentry with he | he
    · exact absurd h.1 he
    · exact absurd h.2.1 he
  · rw [h.1]
  · exact h.2.2.2
  · exact h.2.2.2

/-- C4 witness: the combined call of the three-address example carries
the version current at the call. -/
theorem c4_amended_witness :
    (⟨some 5, [(1, 32)], [(4, 32)], none, 5⟩ : ApiCall Nat).currentVersion
      = some (⟨some 5, [(1, 32)], [(4, 32)], none, 5⟩ : ApiCall Nat).versionAtCall :=
  c4_amended [1, 2, 3] ⟨[(2, 32), (3, 32), (4, 32)], 100, 5⟩ 1000 (9/10)
    ⟨some 5, [(1, 32)], [(4, 32)], none, 5⟩ (by decide) (by decide)

/-- C10: an entry whose mask is not 32 is invisible and untouchable: the
observed list contains exactly the addresses of mask-32 entries, so the
observed set, the computed final size and the remove set depend only on
the mask-32 entries, the remove set only names addresses backed by a
mask-32 entry, and any non-mask-32 entry present at the start of a pass
is still present at its end. -/
theorem c10_non32_preserved (sg : List Nat) (s : MutState Nat) (q : Int) (r : ℚ)
    (e : Entry Nat) (he : e ∈ s.entries) (hm : e.2 ≠ 32) :
    e ∈ (lambdaSync sg s q r).entries
    ∧ (∀ a : Nat, a ∈ get_ips_in_pl s.entries ↔ (a, 32) ∈ s.entries)
    ∧ get_ips_in_pl s.entries = get_ips_in_pl (s.entries.filter (fun x => x.2 == 32))
    ∧ (∀ a ∈ itemsToRemove sg s.entries, (a, 32) ∈ s.entries) := by
  refine ⟨lambdaSync_preserves sg s q r e he hm, fun a => mem_get_ips_in_pl, ?_, ?_⟩
  · unfold get_ips_in_pl
    have hpr : (fun x : Entry Nat => x.2 == 32 && x.2 == 32)
        = (fun x : Entry Nat => x.2 == 32) := by
      funext x
      rw [Bool.and_self]
    rw [List.filter_filter, hpr]
  · intro a ha
    exact mem_get_ips_in_pl.mp (mem_pySetDiff.mp ha).1

/-- C10 witness: a mask-24 entry survives a pass that adds and removes
around it. -/
theorem c10_non32_preserved_witness :
    ((7, 24) : Entry Nat)
      ∈ (lambdaSync [1] (⟨[(7, 24), (2, 32)], 100, 0⟩ : MutState Nat) 1000 (9/10)).entries :=
  (c10_non32_preserved [1] ⟨[(7, 24), (2, 32)], 100, 0⟩ 1000 (9/10) (7, 24)
    (by decide) (by decide)).1

/-- C1 counterexample: a pass that needs a capacity resize resizes,
reports success, and leaves the entries untouched, so the final
host-address set of the resource differs from the membership set read
at the start. -/
theorem c1_counterexample :
    (lambdaSync [1] (⟨[], 0, 0⟩ : MutState Nat) 100 (9/10)).result = SyncResult.success
    ∧ (get_ips_in_pl (lambdaSync [1] (⟨[], 0, 0⟩ : MutState Nat) 100 (9/10)).entries).toFinset
      ≠ ([1] : List Nat).toFinset :=
  ⟨by decide, by decide⟩

/-- C1 (amended): for every pass that does not take the resize branch
(declared capacity already at least the final size), passes the quota
check, and whose diff avoids the exactly-100 dispatch gap (both sets
strictly below 100, or either strictly above 100), the pass reports
success and the final mask-32 address set of the resource equals the
membership set read at the start, as sets. -/
theorem c1_amended (sg : List Nat) (s : MutState Nat) (q : Int) (r : ℚ)
    (hq : ¬ (q - newPlLength sg s.entries < 1))
    (hcap : ¬ (s.maxEnt < newPlLength sg s.entries))
    (hsize : ((itemsToAdd sg s.entries).length < 100
        ∧ (itemsToRemove sg s.entries).length < 100)
      ∨ (itemsToAdd sg s.entries).length > 100
      ∨ (itemsToRemove sg s.entries).length > 100) :
    (lambdaSync sg s q r).result = SyncResult.success
    ∧ (get_ips_in_pl (lambdaSync sg s q r).entries).toFinset = sg.toFinset := by
  constructor
  · rw [lambdaSync_result, if_neg hq]
  · rw [lambdaSync_entries_of sg s q r hq hcap hsize, final_toFinset]
    unfold itemsToRemove itemsToAdd
    rw [toFinset_pySetDiff, toFinset_pySetDiff]
    exact diff_algebra _ _

/-- C1 witness: the end-to-end example of the specification, membership
1, 2, 3 against resource contents 2, 3, 4 with ample capacity and
quota. -/
theorem c1_amended_witness :
    (lambdaSync [1, 2, 3] (⟨[(2, 32), (3, 32), (4, 32)], 100, 5⟩ : MutState Nat)
        1000 (9/10)).result = SyncResult.success
    ∧ (get_ips_in_pl (lambdaSync [1, 2, 3]
        (⟨[(2, 32), (3, 32), (4, 32)], 100, 5⟩ : MutState Nat) 1000 (9/10)).entries).toFinset
      = ([1, 2, 3] : List Nat).toFinset :=
  c1_amended [1, 2, 3] ⟨[(2, 32), (3, 32), (4, 32)], 100, 5⟩ 1000 (9/10)
    (by decide) (by decide) (by decide)

end SG2PL
